import Mathlib

set_option maxRecDepth 8000

/-!
Verification of the Detection & Template Composition Engine of `ignr`
(`src/main.rs`). Text is modelled as `List Char`; file systems (template
directories) are modelled as association lists from exact file name to file
content, matching the exact-path `fs::read_to_string` calls on a
case-sensitive file system. Machine strings are compared byte-for-byte, as in
the Rust source; `Char.toLower` models `str::to_lowercase` (the tags involved
are ASCII). All definitions are translated from `src/main.rs`; the lone
spec-side definition (`resolveSpec`) is marked as such.
-/

/-- Program text: a string as a list of characters. -/
abbrev Str : Type := List Char

/-- Embed a Lean string literal as program text. -/
def lit (s : String) : Str := s.toList

/-- Whitespace predicate modelling `char::is_whitespace` on the ASCII range
(`str::trim`). -/
def wsp (c : Char) : Bool := (c == ' ') || (c == '\t') || (c == '\n') || (c == '\r')

/-- `str::trim`: remove leading and trailing whitespace. -/
def trimStr (s : Str) : Str := ((s.dropWhile wsp).reverse.dropWhile wsp).reverse

/-- Split at every newline character (helper for `str::lines`). -/
def splitNl : Str → List Str
  | [] => [[]]
  | c :: rest =>
    if c = '\n' then [] :: splitNl rest
    else
      match splitNl rest with
      | [] => [[c]]
      | l :: ls => (c :: l) :: ls

/-- Drop one trailing carriage return, as `str::lines` does per line. -/
def stripCr (l : Str) : Str := if l.getLast? = some '\r' then l.dropLast else l

/-- `str::lines`: split on newlines, drop the empty piece produced by a
trailing newline, strip one trailing carriage return per line. -/
def rustLines (s : Str) : List Str :=
  (if (splitNl s).getLast? = some [] then (splitNl s).dropLast else splitNl s).map stripCr

/-- `str::find(pat)`: index of the first occurrence of `pat`, if any. -/
def findSub (pat : Str) : Str → Option Nat
  | [] => if pat.isPrefixOf [] then some 0 else none
  | c :: rest =>
    if pat.isPrefixOf (c :: rest) then some 0
    else (findSub pat rest).map (fun i => i + 1)

/-- `str::contains(pat)`. -/
def containsSub (pat s : Str) : Bool := (findSub pat s).isSome

/-- `str::to_lowercase` (ASCII model). -/
def toLowerStr (s : Str) : Str := s.map Char.toLower

/-- The fixed template file extension used by every directory source
(`format!(".gitignore")` suffixes in `main.rs`). -/
def gitignoreExt : Str := lit ".gitignore"

/-- `fs::read_to_string(dir.join(fname))` over a directory modelled as an
association list from exact file name to content. -/
def readFileIn (dir : List (Str × Str)) (fname : Str) : Option Str :=
  match dir with
  | [] => none
  | (n, c) :: rest => if n = fname then some c else readFileIn rest fname

/-- `TemplateManager::load_from_custom_dir` (main.rs:632-637): read
`<name>.gitignore` from the configured custom template directory, if any. -/
def load_from_custom_dir (template_dir : Option (List (Str × Str))) (name : Str) : Option Str :=
  match template_dir with
  | none => none
  | some dir => readFileIn dir (name ++ gitignoreExt)

/-- `TemplateManager::load_from_data_dir` (main.rs:639-642): read
`<name>.gitignore` from the managed data directory. -/
def load_from_data_dir (data_templates : List (Str × Str)) (name : Str) : Option Str :=
  readFileIn data_templates (name ++ gitignoreExt)

/-- Linear scan of `EMBEDDED_TEMPLATES` comparing lowercased names
(main.rs:616-620). -/
def lookupEmbedded (tbl : List (Str × Str)) (name : Str) : Option Str :=
  match tbl with
  | [] => none
  | (n, c) :: rest => if toLowerStr n = name then some c else lookupEmbedded rest name

/-- The state a `TemplateManager` reads: the `prefer_local` flag, the optional
custom template directory, the managed data directory, and the compiled-in
`EMBEDDED_TEMPLATES` table. -/
structure TemplateManager where
  prefer_local : Bool
  template_dir : Option (List (Str × Str))
  data_templates : List (Str × Str)
  embedded : List (Str × Str)

/-- `TemplateManager::get_template` (main.rs:600-630): lowercase the name;
custom directory first when `prefer_local`, then data directory, then the
embedded table, then the custom directory when not `prefer_local`. -/
def get_template (m : TemplateManager) (name : Str) : Option Str :=
  match (if m.prefer_local then load_from_custom_dir m.template_dir (toLowerStr name) else none) with
  | some c => some c
  | none =>
    match load_from_data_dir m.data_templates (toLowerStr name) with
    | some c => some c
    | none =>
      match lookupEmbedded m.embedded (toLowerStr name) with
      | some c => some c
      | none =>
        if m.prefer_local then none
        else load_from_custom_dir m.template_dir (toLowerStr name)

/-- First hit of an ordered list of lookup results. Modelled from the spec:
"Return the first text found; stop at first success" — used only to compare
`get_template` against the spec's stated source order. -/
def firstSome : List (Option Str) → Option Str
  | [] => none
  | some c :: _ => some c
  | none :: rest => firstSome rest

/-- Modelled from the spec: resolution order "custom directory, managed data
directory, built-in table" when prefer-local is true, else "managed data
directory, built-in table, custom directory"; first source that yields text
wins. -/
def resolveSpec (m : TemplateManager) (name : Str) : Option Str :=
  if m.prefer_local then
    firstSome [load_from_custom_dir m.template_dir (toLowerStr name),
               load_from_data_dir m.data_templates (toLowerStr name),
               lookupEmbedded m.embedded (toLowerStr name)]
  else
    firstSome [load_from_data_dir m.data_templates (toLowerStr name),
               lookupEmbedded m.embedded (toLowerStr name),
               load_from_custom_dir m.template_dir (toLowerStr name)]

/-- Tag-level resolution against one directory-backed source: `get_template`
lowercases the tag (main.rs:601) and the directory loaders read the file named
exactly `<lowered-tag>.gitignore` (main.rs:635, 640). -/
def resolveDirTag (dir : List (Str × Str)) (tag : Str) : Option Str :=
  load_from_custom_dir (some dir) (toLowerStr tag)

/-- The inner loop of `merge_templates` (main.rs:651-657): walk the template's
lines; keep a line when its trimmed form is nonempty and not yet in the global
dedup set; record the trimmed form in the set. Returns the kept lines and the
updated set (the set is modelled as a list used only for membership). -/
def addLines (seen : List Str) : List Str → List Str × List Str
  | [] => ([], seen)
  | l :: ls =>
    if trimStr l ≠ [] ∧ trimStr l ∉ seen then
      ((l :: (addLines (trimStr l :: seen) ls).1), (addLines (trimStr l :: seen) ls).2)
    else addLines seen ls

/-- The outer loop of `merge_templates` (main.rs:648-664), with the resolver
`self.get_template` abstracted as `gt`. Returns the nonempty sections in
order, paired with the list of names for which a missing-template warning was
recorded (main.rs:662). -/
def mergeAux (gt : Str → Option Str) (seen : List Str) : List Str → List (Str × List Str) × List Str
  | [] => ([], [])
  | name :: rest =>
    match gt name with
    | some content =>
      if (addLines seen (rustLines content)).1 = [] then
        mergeAux gt (addLines seen (rustLines content)).2 rest
      else
        (((name, (addLines seen (rustLines content)).1) ::
            (mergeAux gt (addLines seen (rustLines content)).2 rest).1),
          (mergeAux gt (addLines seen (rustLines content)).2 rest).2)
    | none =>
      ((mergeAux gt seen rest).1, name :: (mergeAux gt seen rest).2)

/-- Rendering of one section (main.rs:671-675): the `# === <name> ===` marker
line, then each kept line followed by a newline. -/
def renderOne (sec : Str × List Str) : Str :=
  lit "# === " ++ sec.1 ++ lit " ===\n" ++ sec.2.flatMap (fun l => l ++ ['\n'])

/-- The output-building loop of `merge_templates` (main.rs:666-676): a newline
between consecutive sections (pushed only when the accumulator is nonempty). -/
def renderFold (acc : Str) : List (Str × List Str) → Str
  | [] => acc
  | sec :: rest => renderFold (acc ++ (if acc = [] then [] else ['\n']) ++ renderOne sec) rest

/-- `merge_templates` with the resolver abstracted: compose the sections and
render them. -/
def mergeRender (gt : Str → Option Str) (templates : List Str) : Str :=
  renderFold [] (mergeAux gt [] templates).1

/-- `TemplateManager::merge_templates` (main.rs:644-679). -/
def merge_templates (m : TemplateManager) (templates : List Str) : Str :=
  mergeRender (get_template m) templates

/-- The literal header search key `"# ---- ignr (detected:"` (main.rs:793). -/
def hdrPat : Str := lit "# ---- ignr (detected:"

/-- The literal boundary search key `"\n# ----"` (main.rs:798). -/
def bndPat : Str := lit "\n# ----"

/-- The literal filter key `"--- ignr"` (main.rs:799). -/
def ignrTail : Str := lit "--- ignr"

/-- The replace-mode merge of `handle_generate` (main.rs:787-807): find the
first header occurrence; the old block runs from there to one past the first
`"\n# ----"` occurrence — unless the text after that occurrence's first
character starts with `"--- ignr"`, in which case (and when there is no
occurrence) the old block runs to end of file; splice the new content between
the preserved prefix and suffix. When no header is found, concatenate. -/
def replaceManaged (existing full : Str) : Str :=
  match findSub hdrPat existing with
  | some start =>
    let afterStart := existing.drop start
    let e : Nat :=
      match findSub bndPat afterStart with
      | some pos =>
        if ignrTail.isPrefixOf (afterStart.drop (pos + 1)) then existing.length
        else start + pos + 1
      | none => existing.length
    existing.take start ++ full ++ (if e < existing.length then existing.drop e else [])
  | none => existing ++ '\n' :: full

/-- The `final_content` selection of `handle_generate` (main.rs:783-810):
append mode concatenates with a newline; otherwise an existing file goes
through the managed-section replacement; a missing file takes the new content
alone. -/
def mergeFinal (append : Bool) (existing : Option Str) (full : Str) : Str :=
  match existing with
  | some ex => if append then ex ++ '\n' :: full else replaceManaged ex full
  | none => full

/-- One entry yielded by the directory walker in `detect_technologies`:
its path text (`to_string_lossy`) and whether it is a directory. -/
structure WalkEntry where
  path : Str
  isDir : Bool

/-- `Path::file_name` (model): the component after the last `/`. -/
def pathFileName (p : Str) : Str :=
  (p.reverse.takeWhile (fun c => ¬ c = '/')).reverse

/-- `Path::extension` (model): the text after the last `.` of the file name;
none when there is no `.` or the only `.` leads a hidden-file name. -/
def extOf (fname : Str) : Option Str :=
  if (fname.reverse.takeWhile (fun c => ¬ c = '.')).length = fname.length then none
  else if (fname.reverse.takeWhile (fun c => ¬ c = '.')).length + 1 = fname.length then none
  else some (fname.reverse.takeWhile (fun c => ¬ c = '.')).reverse

/-- The manifest-name match of `detect_technologies` (main.rs:469-499). -/
def manifestTags (fname path : Str) : List Str :=
  if fname = lit "Cargo.toml" then [lit "rust"]
  else if fname = lit "package.json" then [lit "node"]
  else if fname = lit "requirements.txt" ∨ fname = lit "pyproject.toml" ∨
          fname = lit "setup.py" ∨ fname = lit "Pipfile" ∨ fname = lit "uv.lock" then
    [lit "python"]
  else if fname = lit "go.mod" ∨ fname = lit "go.sum" then [lit "go"]
  else if fname = lit "pom.xml" ∨ fname = lit "build.gradle" then [lit "java"]
  else if fname = lit "build.gradle.kts" then
    lit "java" :: (if containsSub (lit "kotlin") path then [lit "kotlin"] else [])
  else if fname = lit "CMakeLists.txt" ∨ fname = lit "Makefile" ∨ fname = lit "configure.ac" then
    [lit "cpp"]
  else if fname = lit "Gemfile" ∨ fname = lit "Rakefile" then [lit "ruby"]
  else if fname = lit "Package.swift" then [lit "swift"]
  else if fname = lit "composer.json" then [lit "php"]
  else if fname = lit "build.sbt" then [lit "scala"]
  else if fname = lit "mix.exs" then [lit "elixir"]
  else if fname = lit "stack.yaml" ∨ fname = lit "cabal.project" then [lit "haskell"]
  else if fname = lit "build.zig" then [lit "zig"]
  else if fname = lit "pubspec.yaml" then [lit "dart"]
  else if fname = lit "main.tf" ∨ fname = lit "terraform.tf" then [lit "terraform"]
  else if fname = lit "playbook.yml" ∨ fname = lit "ansible.cfg" then [lit "ansible"]
  else if fname = lit "Dockerfile" ∨ fname = lit "docker-compose.yml" ∨
          fname = lit "docker-compose.yaml" then [lit "docker"]
  else []

/-- The extension match of `detect_technologies` (main.rs:502-524). -/
def extTags (ext : Str) : List Str :=
  if ext = lit "rs" then [lit "rust"]
  else if ext = lit "py" ∨ ext = lit "pyw" ∨ ext = lit "pyi" then [lit "python"]
  else if ext = lit "js" ∨ ext = lit "jsx" ∨ ext = lit "ts" ∨ ext = lit "tsx" ∨
          ext = lit "mjs" ∨ ext = lit "cjs" then [lit "node"]
  else if ext = lit "go" then [lit "go"]
  else if ext = lit "java" then [lit "java"]
  else if ext = lit "cs" ∨ ext = lit "fs" ∨ ext = lit "vb" then [lit "csharp"]
  else if ext = lit "c" ∨ ext = lit "cpp" ∨ ext = lit "cc" ∨ ext = lit "cxx" ∨
          ext = lit "h" ∨ ext = lit "hpp" ∨ ext = lit "hxx" then [lit "cpp"]
  else if ext = lit "rb" then [lit "ruby"]
  else if ext = lit "swift" then [lit "swift"]
  else if ext = lit "kt" ∨ ext = lit "kts" then [lit "kotlin"]
  else if ext = lit "php" then [lit "php"]
  else if ext = lit "scala" ∨ ext = lit "sc" then [lit "scala"]
  else if ext = lit "ex" ∨ ext = lit "exs" then [lit "elixir"]
  else if ext = lit "hs" ∨ ext = lit "lhs" then [lit "haskell"]
  else if ext = lit "zig" then [lit "zig"]
  else if ext = lit "dart" then [lit "dart"]
  else if ext = lit "tf" ∨ ext = lit "tfvars" then [lit "terraform"]
  else if ext = lit "csproj" ∨ ext = lit "sln" ∨ ext = lit "fsproj" then [lit "csharp"]
  else []

/-- The IDE/editor directory match of `detect_technologies` (main.rs:527-535). -/
def ideTags (fname : Str) : List Str :=
  if fname = lit ".vscode" then [lit "vscode"]
  else if fname = lit ".idea" then [lit "intellij"]
  else if fname = lit ".vim" ∨ fname = lit ".nvim" then [lit "vim"]
  else if fname = lit ".emacs.d" then [lit "emacs"]
  else []

/-- The tags inserted while `detect_technologies` visits one walker entry
(main.rs:464-536): manifest rules, then extension rules, then — for
directories, when IDE detection is on — editor-directory rules. -/
def visitEntry (detect_ide : Bool) (e : WalkEntry) : List Str :=
  manifestTags (pathFileName e.path) e.path
    ++ (match extOf (pathFileName e.path) with
        | some ext => extTags ext
        | none => [])
    ++ (if detect_ide && e.isDir then ideTags (pathFileName e.path) else [])

/-- Strict lexicographic comparison on character lists: the order of Rust's
`Ord for String` (byte order, which agrees with code point order). -/
def strLtB : Str → Str → Bool
  | [], [] => false
  | [], _ :: _ => true
  | _ :: _, [] => false
  | a :: as, b :: bs => if a < b then true else if b < a then false else strLtB as bs

/-- `BTreeSet::insert` over the model of a `BTreeSet<String>` as a strictly
sorted list. -/
def insertSorted (x : Str) : List Str → List Str
  | [] => [x]
  | y :: ys => if strLtB x y then x :: y :: ys else if x = y then y :: ys else y :: insertSorted x ys

/-- Insert every element of a list into the set. -/
def insertAll (ts : List Str) (acc : List Str) : List Str :=
  ts.foldl (fun a t => insertSorted t a) acc

/-- The template set of `handle_generate` (main.rs:706-736): the detected tags,
then the `--add` tags lowercased, then the `always_include` tags lowercased,
all collected into one `BTreeSet<String>` and read out in order as
`template_list`. -/
def buildTemplateList (detected adds always : List Str) : List Str :=
  insertAll (always.map toLowerStr) (insertAll (adds.map toLowerStr) (insertAll detected []))

/-- The template assignment of the order-dependent survivorship scenario:
tag `a` holds the single line `X`, tag `b` holds the lines `X` then `Y`. -/
def gtAB (X Y : Str) (n : Str) : Option Str :=
  if n = lit "a" then some X
  else if n = lit "b" then some (X ++ '\n' :: Y)
  else none

/-- The existing file of the replacement-truncation scenario: two managed
blocks accumulated by two append-mode runs. -/
def exC1 : Str :=
  lit "# ---- ignr (detected: rust) @ 2024-01-01 ----\n\n# === rust ===\ntarget/\n\n# ---- ignr (detected: go) @ 2024-01-02 ----\n\n# === go ===\nbin/\n"

/-- The second managed block inside `exC1`. -/
def tailC1 : Str :=
  lit "# ---- ignr (detected: go) @ 2024-01-02 ----\n\n# === go ===\nbin/\n"

/-- A freshly composed full content (header plus one section). -/
def fullC1 : Str :=
  lit "# ---- ignr (detected: python) @ 2024-03-03 ----\n\n# === python ===\n.venv/\n"

/-- C1: evaluation of the replace-mode merge on a file holding two managed
blocks: the code truncates the replaced region at the second line beginning
with the managed header's own marker text (`# ---- ignr (detected:`), keeping
that second block as suffix, although the claim (and the comment at
main.rs:795) requires the boundary scan to skip a line that starts another
occurrence of the header's own literal prefix. The guard at main.rs:799 tests
the text at `pos + 1`, which always begins with the characters `# ` of the
boundary line and so can never begin with `--- ignr`: the guard never fires. -/
theorem c1_replace_truncates_at_ignr_header :
    replaceManaged exC1 fullC1 = fullC1 ++ tailC1 ∧
    List.isPrefixOf hdrPat tailC1 = true := by
  decide

/-- C5: `get_template` equals the spec-side resolver: sources are consulted in
the order custom directory, managed data directory, built-in table when
`prefer_local` is true, and managed data directory, built-in table, custom
directory when it is false; the first source that yields text wins. -/
theorem c5_resolution_order (m : TemplateManager) (name : Str) :
    get_template m name = resolveSpec m name := by
  unfold get_template resolveSpec
  cases hp : m.prefer_local <;>
    cases hc : load_from_custom_dir m.template_dir (toLowerStr name) <;>
      cases hd : load_from_data_dir m.data_templates (toLowerStr name) <;>
        cases he : lookupEmbedded m.embedded (toLowerStr name) <;>
          simp [firstSome, hc, hd, he]

/-- C7: in append mode the result is the existing content, a newline
separator, then the composed block; no search for a prior managed block
happens — the existing text (with any managed block inside it) survives as
the unchanged first `ex.length` characters, and the composed block follows
unchanged, so a file already holding a managed block accumulates two. -/
theorem c7_append_concatenates (ex full : Str) :
    mergeFinal true (some ex) full = ex ++ '\n' :: full ∧
    (mergeFinal true (some ex) full).take ex.length = ex ∧
    (mergeFinal true (some ex) full).drop (ex.length + 1) = full := by
  refine ⟨rfl, ?_, ?_⟩
  · show (ex ++ '\n' :: full).take ex.length = ex
    exact List.take_left ex ('\n' :: full)
  · show (ex ++ '\n' :: full).drop (ex.length + 1) = full
    rw [← List.drop_drop, List.drop_left]
    rfl

/-- C8 counterexample: the directory-backed lookup reads the file named
exactly `<lowercased-tag>.gitignore`, so a stored file `Rust.gitignore` —
whose stem matches the tag `rust` case-insensitively, the very example of the
claim — is never found for the tag `rust`, even though the file is present. -/
theorem c8_counterexample :
    resolveDirTag [(lit "Rust.gitignore", lit "target/")] (lit "rust") = none ∧
    readFileIn [(lit "Rust.gitignore", lit "target/")] (lit "Rust.gitignore") =
      some (lit "target/") := by
  decide

/-- C8 amended: a directory-backed source finds a template for a tag exactly
when the directory holds a file named precisely the lowercased tag followed by
`.gitignore`; the match is case-insensitive in the tag (tags equal up to case
resolve identically) but case-sensitive in the stored file name. -/
theorem c8_lowercase_file_resolution (dir : List (Str × Str)) (tag tag2 : Str)
    (h : toLowerStr tag2 = toLowerStr tag) :
    resolveDirTag dir tag = readFileIn dir (toLowerStr tag ++ gitignoreExt) ∧
    resolveDirTag dir tag2 = resolveDirTag dir tag := by
  refine ⟨rfl, ?_⟩
  show load_from_custom_dir (some dir) (toLowerStr tag2) = _
  rw [h]
  rfl

/-- C8 witness: the amended statement at a concrete directory holding
`rust.gitignore`, with the differently-cased tags `RuSt` and `rust`. -/
theorem c8_witness :
    toLowerStr (lit "RuSt") = toLowerStr (lit "rust") ∧
    resolveDirTag [(lit "rust.gitignore", lit "target/")] (lit "RuSt") =
      resolveDirTag [(lit "rust.gitignore", lit "target/")] (lit "rust") :=
  ⟨by decide,
   (c8_lowercase_file_resolution [(lit "rust.gitignore", lit "target/")]
      (lit "rust") (lit "RuSt") (by decide)).2⟩

/-- Evaluation of the manifest table at the file name `build.gradle.kts`:
the `java` tag plus `kotlin` when the path text contains `kotlin`
(main.rs:477-483). -/
theorem manifestTags_gradle_kts (p : Str) :
    manifestTags (lit "build.gradle.kts") p =
      lit "java" :: (if containsSub (lit "kotlin") p then [lit "kotlin"] else []) := rfl

/-- `build.gradle.kts` carries the extension `kts`. -/
theorem extOf_gradle_kts : extOf (lit "build.gradle.kts") = some (lit "kts") := by decide

/-- The extension table sends `kts` to `kotlin` (main.rs:513). -/
theorem extTags_kts : extTags (lit "kts") = [lit "kotlin"] := by decide

/-- C9 counterexample: visiting `/proj/build.gradle.kts`, whose path does not
contain the substring `kotlin`, still emits the `kotlin` tag (through the
`kts` extension rule at main.rs:513), refuting the claimed "if and only if the
entry's path contains the substring kotlin". -/
theorem c9_counterexample :
    lit "kotlin" ∈ visitEntry true (WalkEntry.mk (lit "/proj/build.gradle.kts") false) ∧
    containsSub (lit "kotlin") (lit "/proj/build.gradle.kts") = false := by
  decide

/-- C9 amended: visiting any entry named `build.gradle.kts` always emits both
`java` (manifest rule, main.rs:477-478) and `kotlin` (the file's `kts`
extension, main.rs:513), whether or not the path contains `kotlin`; the
conditional kotlin insertion of the manifest rule is subsumed. -/
theorem c9_gradle_kts_tags (ide : Bool) (e : WalkEntry)
    (h : pathFileName e.path = lit "build.gradle.kts") :
    lit "java" ∈ visitEntry ide e ∧ lit "kotlin" ∈ visitEntry ide e := by
  unfold visitEntry
  rw [h, manifestTags_gradle_kts, extOf_gradle_kts]
  constructor
  · exact List.mem_append_left _ (List.mem_append_left _ (List.mem_cons_self _ _))
  · refine List.mem_append_left _ (List.mem_append_right _ ?_)
    show lit "kotlin" ∈ extTags (lit "kts")
    rw [extTags_kts]
    exact List.mem_singleton_self _

/-- C9 witness: the amended statement at the concrete entry
`/proj/build.gradle.kts`. -/
theorem c9_witness :
    lit "java" ∈ visitEntry true (WalkEntry.mk (lit "/proj/build.gradle.kts") false) ∧
    lit "kotlin" ∈ visitEntry true (WalkEntry.mk (lit "/proj/build.gradle.kts") false) :=
  c9_gradle_kts_tags true (WalkEntry.mk (lit "/proj/build.gradle.kts") false) (by decide)

/-- C2: replace preserves surrounding content. For every existing file made of
a prefix `before`, an old managed block `blk`, and a suffix `after` that
begins at the detected boundary — the header prefix is first found exactly
where `blk` starts, the first `"\n# ----"` of the scanned region is the old
block's final newline followed by the boundary line opening `after`, and
`after` opens with the generic section-delimiter token `# ----` — replace-mode
merging yields `before`, then the new composed content, then `after`, with
`before` and `after` preserved byte-for-byte. -/
theorem c2_replace_preserves_surroundings (before blk after full : Str)
    (h1 : findSub hdrPat (before ++ blk ++ after) = some before.length)
    (h2 : findSub bndPat (blk ++ after) = some (blk.length - 1))
    (h3 : blk.getLast? = some '\n')
    (h4 : List.isPrefixOf (lit "# ----") after = true) :
    replaceManaged (before ++ blk ++ after) full = before ++ full ++ after := by
  have hblk : blk ≠ [] := by
    intro hb
    rw [hb] at h3
    simp at h3
  have hlen : 1 ≤ blk.length := List.length_pos.mpr hblk
  obtain ⟨t, ht⟩ := List.isPrefixOf_iff_prefix.mp h4
  have hafter : 0 < after.length := by
    rw [← ht]
    simp [lit]
  have hdropA : (before ++ blk ++ after).drop before.length = blk ++ after := by
    rw [List.append_assoc]
    exact List.drop_left _ _
  have hign : List.isPrefixOf ignrTail after = false := by
    rw [← ht]
    rfl
  have hsub : blk.length - 1 + 1 = blk.length := by omega
  have htake : (before ++ blk ++ after).take before.length = before := by
    rw [List.append_assoc]
    exact List.take_left _ _
  have hdropB : (before ++ blk ++ after).drop (before.length + blk.length) = after := by
    rw [← List.length_append]
    exact List.drop_left _ _
  have hcond : before.length + blk.length < (before ++ blk ++ after).length := by
    simp only [List.length_append]
    omega
  have he : before.length + (blk.length - 1) + 1 = before.length + blk.length := by omega
  simp only [replaceManaged, h1, hdropA, h2, hsub, List.drop_left, hign, Bool.false_eq_true,
    if_false, he, if_pos hcond, hdropB, htake]

/-- C2 witness: the frame property at a concrete file `user`-line prefix, one
managed block, and a user section opening at the boundary. -/
theorem c2_witness :
    replaceManaged
        (lit "user\n" ++
          lit "# ---- ignr (detected: rust) @ 2024-01-01 ----\n\n# === rust ===\ntarget/\n" ++
          lit "# ---- user section ----\nkeep\n")
        (lit "# ---- ignr (detected: go) @ 2024-05-05 ----\n\n# === go ===\nbin/\n") =
      lit "user\n" ++
        lit "# ---- ignr (detected: go) @ 2024-05-05 ----\n\n# === go ===\nbin/\n" ++
        lit "# ---- user section ----\nkeep\n" :=
  c2_replace_preserves_surroundings
    (lit "user\n")
    (lit "# ---- ignr (detected: rust) @ 2024-01-01 ----\n\n# === rust ===\ntarget/\n")
    (lit "# ---- user section ----\nkeep\n")
    (lit "# ---- ignr (detected: go) @ 2024-05-05 ----\n\n# === go ===\nbin/\n")
    (by decide) (by decide) (by decide) (by decide)

/-- The dedup set only grows across one template's lines. -/
theorem addLines_seen_mono (ls : List Str) : ∀ (seen : List Str) (x : Str),
    x ∈ seen → x ∈ (addLines seen ls).2 := by
  induction ls with
  | nil => intro seen x hx; exact hx
  | cons a ls ih =>
    intro seen x hx
    by_cases h : trimStr a ≠ [] ∧ trimStr a ∉ seen
    · simp only [addLines, if_pos h]
      exact ih _ x (List.mem_cons_of_mem _ hx)
    · simp only [addLines, if_neg h]
      exact ih _ x hx

/-- Every kept line's trimmed form ends up in the dedup set. -/
theorem addLines_kept_in_seen (ls : List Str) : ∀ (seen : List Str) (l : Str),
    l ∈ (addLines seen ls).1 → trimStr l ∈ (addLines seen ls).2 := by
  induction ls with
  | nil => intro seen l hl; simp [addLines] at hl
  | cons a ls ih =>
    intro seen l hl
    by_cases h : trimStr a ≠ [] ∧ trimStr a ∉ seen
    · simp only [addLines, if_pos h] at hl ⊢
      rcases List.mem_cons.mp hl with rfl | hl2
      · exact addLines_seen_mono ls _ _ (List.mem_cons_self _ _)
      · exact ih _ l hl2
    · simp only [addLines, if_neg h] at hl ⊢
      exact ih _ l hl

/-- A kept line's trimmed form was not in the dedup set beforehand. -/
theorem addLines_kept_fresh (ls : List Str) : ∀ (seen : List Str) (l : Str),
    l ∈ (addLines seen ls).1 → trimStr l ∉ seen := by
  induction ls with
  | nil => intro seen l hl; simp [addLines] at hl
  | cons a ls ih =>
    intro seen l hl
    by_cases h : trimStr a ≠ [] ∧ trimStr a ∉ seen
    · simp only [addLines, if_pos h] at hl
      rcases List.mem_cons.mp hl with rfl | hl2
      · exact h.2
      · intro hmem
        exact ih _ l hl2 (List.mem_cons_of_mem _ hmem)
    · simp only [addLines, if_neg h] at hl
      exact ih _ l hl

/-- The kept lines of one template are pairwise distinct after trimming. -/
theorem addLines_kept_nodup (ls : List Str) : ∀ (seen : List Str),
    ((addLines seen ls).1.map trimStr).Nodup := by
  induction ls with
  | nil => intro seen; simp [addLines]
  | cons a ls ih =>
    intro seen
    by_cases h : trimStr a ≠ [] ∧ trimStr a ∉ seen
    · simp only [addLines, if_pos h, List.map_cons]
      refine List.nodup_cons.mpr ⟨?_, ih _⟩
      intro hmem
      obtain ⟨l, hl, hEq⟩ := List.mem_map.mp hmem
      exact addLines_kept_fresh ls (trimStr a :: seen) l hl
        (by rw [hEq]; exact List.mem_cons_self _ _)
    · simp only [addLines, if_neg h]
      exact ih _

/-- No line kept anywhere in the composed sections had its trimmed form in the
dedup set the composition started from. -/
theorem mergeAux_lines_fresh (gt : Str → Option Str) (ts : List Str) :
    ∀ (seen : List Str) (l : Str),
      l ∈ (mergeAux gt seen ts).1.flatMap Prod.snd → trimStr l ∉ seen := by
  induction ts with
  | nil => intro seen l hl; simp [mergeAux] at hl
  | cons name rest ih =>
    intro seen l hl
    cases hg : gt name with
    | none =>
      simp only [mergeAux, hg] at hl
      exact ih _ l hl
    | some content =>
      simp only [mergeAux, hg] at hl
      by_cases hs : (addLines seen (rustLines content)).1 = []
      · rw [if_pos hs] at hl
        intro hmem
        exact ih _ l hl (addLines_seen_mono _ _ _ hmem)
      · rw [if_neg hs] at hl
        simp only [List.flatMap_cons] at hl
        rcases List.mem_append.mp hl with h1 | h2
        · exact addLines_kept_fresh _ _ _ h1
        · intro hmem
          exact ih _ l h2 (addLines_seen_mono _ _ _ hmem)

/-- Across all sections of one composition, the trimmed kept lines are
pairwise distinct. -/
theorem mergeAux_lines_nodup (gt : Str → Option Str) (ts : List Str) :
    ∀ (seen : List Str),
      (((mergeAux gt seen ts).1.flatMap Prod.snd).map trimStr).Nodup := by
  induction ts with
  | nil => intro seen; simp [mergeAux]
  | cons name rest ih =>
    intro seen
    cases hg : gt name with
    | none =>
      simp only [mergeAux, hg]
      exact ih _
    | some content =>
      simp only [mergeAux, hg]
      by_cases hs : (addLines seen (rustLines content)).1 = []
      · rw [if_pos hs]
        exact ih _
      · rw [if_neg hs]
        simp only [List.flatMap_cons, List.map_append]
        refine List.nodup_append.mpr ⟨addLines_kept_nodup _ _, ih _, ?_⟩
        intro x hx hy
        obtain ⟨l1, hl1, hq1⟩ := List.mem_map.mp hx
        obtain ⟨l2, hl2, hq2⟩ := List.mem_map.mp hy
        have hin : trimStr l1 ∈ (addLines seen (rustLines content)).2 :=
          addLines_kept_in_seen _ _ _ hl1
        have hout : trimStr l2 ∉ (addLines seen (rustLines content)).2 :=
          mergeAux_lines_fresh gt rest _ l2 hl2
        rw [hq1] at hin
        rw [hq2] at hout
        exact hout hin

/-- C3: dedup monotonicity — for every resolver and every requested tag list,
no line content (compared after trimming surrounding whitespace) appears more
than once across the kept lines of all rendered sections of one composed
block. -/
theorem c3_no_duplicate_lines (gt : Str → Option Str) (ts : List Str) :
    (((mergeAux gt [] ts).1.flatMap Prod.snd).map trimStr).Nodup :=
  mergeAux_lines_nodup gt ts []

/-- The recorded missing-template warnings are exactly the requested tags the
resolver has no text for, in request order. -/
theorem mergeAux_missing_filter (gt : Str → Option Str) (ts : List Str) :
    ∀ (seen : List Str),
      (mergeAux gt seen ts).2 = ts.filter (fun t => (gt t).isNone) := by
  induction ts with
  | nil => intro seen; rfl
  | cons name rest ih =>
    intro seen
    cases hg : gt name with
    | none =>
      simp only [mergeAux, hg]
      rw [ih]
      simp [hg]
    | some content =>
      simp only [mergeAux, hg]
      by_cases hs : (addLines seen (rustLines content)).1 = []
      · rw [if_pos hs, ih]
        simp [hg]
      · rw [if_neg hs]
        simp only []
        rw [ih]
        simp [hg]

/-- Tags without a template are skipped: the produced sections equal those of
the run over the resolvable tags alone. -/
theorem mergeAux_skip_missing (gt : Str → Option Str) (ts : List Str) :
    ∀ (seen : List Str),
      (mergeAux gt seen ts).1 =
        (mergeAux gt seen (ts.filter (fun t => (gt t).isSome))).1 := by
  induction ts with
  | nil => intro seen; rfl
  | cons name rest ih =>
    intro seen
    cases hg : gt name with
    | none =>
      have hf : (name :: rest).filter (fun t => (gt t).isSome) =
          rest.filter (fun t => (gt t).isSome) := by
        simp [List.filter_cons, hg]
      rw [hf]
      simp only [mergeAux, hg]
      exact ih _
    | some content =>
      have hf : (name :: rest).filter (fun t => (gt t).isSome) =
          name :: rest.filter (fun t => (gt t).isSome) := by
        simp [List.filter_cons, hg]
      rw [hf]
      simp only [mergeAux, hg]
      by_cases hs : (addLines seen (rustLines content)).1 = []
      · rw [if_pos hs, if_pos hs]
        exact ih _
      · rw [if_neg hs, if_neg hs]
        simp only []
        rw [ih]

/-- C6: a requested tag with no template does not abort composition — exactly
one diagnostic is recorded per missing tag (in request order), the sections
are those of the resolvable tags alone, and when every requested tag is
missing the composed block is empty rather than an error. -/
theorem c6_missing_template_recovery (gt : Str → Option Str) (ts : List Str)
    (seen : List Str) :
    (mergeAux gt seen ts).2 = ts.filter (fun t => (gt t).isNone) ∧
    (mergeAux gt seen ts).1 =
      (mergeAux gt seen (ts.filter (fun t => (gt t).isSome))).1 ∧
    ((∀ t ∈ ts, gt t = none) → mergeRender gt ts = []) := by
  refine ⟨mergeAux_missing_filter gt ts seen, mergeAux_skip_missing gt ts seen, ?_⟩
  intro hall
  have hf : ts.filter (fun t => (gt t).isSome) = [] := by
    rw [List.filter_eq_nil_iff]
    intro a ha
    rw [hall a ha]
    simp
  unfold mergeRender
  rw [mergeAux_skip_missing gt ts [], hf]
  rfl

/-- C6 witness: composing the single unresolvable tag `xyz` records one
diagnostic and produces the empty block. -/
theorem c6_witness : mergeRender (fun _ => none) [lit "xyz"] = [] :=
  (c6_missing_template_recovery (fun _ => none) [lit "xyz"] []).2.2
    (fun _ _ => rfl)

/-- A text without newline is a single split piece. -/
theorem splitNl_no_newline (l : Str) (h : '\n' ∉ l) : splitNl l = [l] := by
  induction l with
  | nil => rfl
  | cons c cs ih =>
    have hc : ¬ c = '\n' := fun hEq => h (hEq ▸ List.mem_cons_self _ _)
    simp only [splitNl, if_neg hc]
    rw [ih (fun hm => h (List.mem_cons_of_mem _ hm))]

/-- Splitting at the first newline of `X ++ '\n' :: Y` when `X` has none. -/
theorem splitNl_append_newline (X Y : Str) (h : '\n' ∉ X) :
    splitNl (X ++ '\n' :: Y) = X :: splitNl Y := by
  induction X with
  | nil =>
    show splitNl ('\n' :: Y) = [] :: splitNl Y
    simp [splitNl]
  | cons c cs ih =>
    have hc : ¬ c = '\n' := fun hEq => h (hEq ▸ List.mem_cons_self _ _)
    show splitNl (c :: (cs ++ '\n' :: Y)) = (c :: cs) :: splitNl Y
    simp only [splitNl, if_neg hc]
    rw [ih (fun hm => h (List.mem_cons_of_mem _ hm))]

/-- A line without carriage return is untouched by the CR strip. -/
theorem stripCr_no_cr (l : Str) (h : '\r' ∉ l) : stripCr l = l := by
  unfold stripCr
  rw [if_neg]
  intro hEq
  exact h (List.mem_of_mem_getLast? hEq)

/-- `str::lines` of a nonempty text without newline or carriage return is that
single line. -/
theorem rustLines_single (X : Str) (hn : '\n' ∉ X) (hr : '\r' ∉ X) (hne : X ≠ []) :
    rustLines X = [X] := by
  unfold rustLines
  rw [splitNl_no_newline X hn]
  have hcond : ¬ (([X] : List Str).getLast? = some ([] : Str)) := by
    rw [List.getLast?_singleton]
    simp [hne]
  rw [if_neg hcond]
  simp [stripCr_no_cr X hr]

/-- `str::lines` of `X ++ '\n' :: Y` is the two lines `X` and `Y` when neither
holds a newline or carriage return and `Y` is nonempty. -/
theorem rustLines_two (X Y : Str) (hnX : '\n' ∉ X) (hnY : '\n' ∉ Y)
    (hrX : '\r' ∉ X) (hrY : '\r' ∉ Y) (hYne : Y ≠ []) :
    rustLines (X ++ '\n' :: Y) = [X, Y] := by
  unfold rustLines
  rw [splitNl_append_newline X Y hnX, splitNl_no_newline Y hnY]
  have hcond : ¬ (([X, Y] : List Str).getLast? = some ([] : Str)) := by
    rw [List.getLast?_cons_cons, List.getLast?_singleton]
    simp [hYne]
  rw [if_neg hcond]
  simp [stripCr_no_cr X hrX, stripCr_no_cr Y hrY]

/-- C4: order-dependent survivorship. With template `a` holding the single
line `X` and template `b` holding the lines `X` then `Y` (distinct nonblank
trimmed contents), composing `[a, b]` yields a section for `a` holding `X` and
a section for `b` holding only `Y`, while composing `[b, a]` yields a section
for `b` holding `X` and `Y` and no section for `a` at all. -/
theorem c4_order_dependent_survivorship (X Y : Str)
    (hnX : '\n' ∉ X) (hnY : '\n' ∉ Y) (hrX : '\r' ∉ X) (hrY : '\r' ∉ Y)
    (htX : trimStr X ≠ []) (htY : trimStr Y ≠ []) (hXY : trimStr X ≠ trimStr Y) :
    (mergeAux (gtAB X Y) [] [lit "a", lit "b"]).1 = [(lit "a", [X]), (lit "b", [Y])] ∧
    (mergeAux (gtAB X Y) [] [lit "b", lit "a"]).1 = [(lit "b", [X, Y])] := by
  have hXne : X ≠ [] := by
    intro hx
    exact htX (by rw [hx]; rfl)
  have hYne : Y ≠ [] := by
    intro hy
    exact htY (by rw [hy]; rfl)
  have hga : gtAB X Y (lit "a") = some X := rfl
  have hgb : gtAB X Y (lit "b") = some (X ++ '\n' :: Y) := rfl
  have hla : rustLines X = [X] := rustLines_single X hnX hrX hXne
  have hlb : rustLines (X ++ '\n' :: Y) = [X, Y] := rustLines_two X Y hnX hnY hrX hrY hYne
  have hYX : trimStr Y ≠ trimStr X := Ne.symm hXY
  have hA1 : addLines [] [X] = ([X], [trimStr X]) := by
    simp [addLines, htX]
  have hA2 : addLines [trimStr X] [X, Y] = ([Y], [trimStr Y, trimStr X]) := by
    simp [addLines, htY, hYX]
  have hB1 : addLines [] [X, Y] = ([X, Y], [trimStr Y, trimStr X]) := by
    simp [addLines, htX, htY, hYX]
  have hB2 : addLines [trimStr Y, trimStr X] [X] = ([], [trimStr Y, trimStr X]) := by
    simp [addLines]
  constructor
  · simp [mergeAux, hga, hgb, hla, hlb, hA1, hA2]
  · simp [mergeAux, hga, hgb, hla, hlb, hB1, hB2]

/-- C4 witness: the survivorship scenario at the concrete lines `target/` and
`node_modules/`. -/
theorem c4_witness :
    (mergeAux (gtAB (lit "target/") (lit "node_modules/")) []
        [lit "a", lit "b"]).1 =
      [(lit "a", [lit "target/"]), (lit "b", [lit "node_modules/"])] ∧
    (mergeAux (gtAB (lit "target/") (lit "node_modules/")) []
        [lit "b", lit "a"]).1 =
      [(lit "b", [lit "target/", lit "node_modules/"])] :=
  c4_order_dependent_survivorship (lit "target/") (lit "node_modules/")
    (by decide) (by decide) (by decide) (by decide) (by decide) (by decide) (by decide)

/-- Unfolding of the lexicographic comparison on two nonempty strings. -/
theorem strLtB_cons_iff (a b : Char) (as bs : Str) :
    strLtB (a :: as) (b :: bs) = true ↔ a < b ∨ (a = b ∧ strLtB as bs = true) := by
  rcases lt_trichotomy a b with h | h | h
  · simp [strLtB, h]
  · subst h
    simp [strLtB, lt_irrefl]
  · have h1 : ¬ a < b := asymm h
    have h2 : ¬ a = b := fun hEq => absurd h (hEq ▸ lt_irrefl a)
    simp [strLtB, h1, h2, h]

/-- Totality of the lexicographic comparison. -/
theorem strLtB_total (a : Str) : ∀ b : Str, strLtB a b = true ∨ a = b ∨ strLtB b a = true := by
  induction a with
  | nil =>
    intro b
    cases b with
    | nil => exact Or.inr (Or.inl rfl)
    | cons bh bt => exact Or.inl rfl
  | cons x xs ih =>
    intro b
    cases b with
    | nil => exact Or.inr (Or.inr rfl)
    | cons bh bt =>
      rcases lt_trichotomy x bh with h | h | h
      · exact Or.inl ((strLtB_cons_iff _ _ _ _).mpr (Or.inl h))
      · subst h
        rcases ih bt with h2 | h2 | h2
        · exact Or.inl ((strLtB_cons_iff _ _ _ _).mpr (Or.inr ⟨rfl, h2⟩))
        · exact Or.inr (Or.inl (by rw [h2]))
        · exact Or.inr (Or.inr ((strLtB_cons_iff _ _ _ _).mpr (Or.inr ⟨rfl, h2⟩)))
      · exact Or.inr (Or.inr ((strLtB_cons_iff _ _ _ _).mpr (Or.inl h)))

/-- Irreflexivity of the lexicographic comparison. -/
theorem strLtB_irrefl (a : Str) : strLtB a a = false := by
  induction a with
  | nil => rfl
  | cons x xs ih => simp [strLtB, lt_irrefl, ih]

/-- Transitivity of the lexicographic comparison. -/
theorem strLtB_trans (a : Str) :
    ∀ b c : Str, strLtB a b = true → strLtB b c = true → strLtB a c = true := by
  induction a with
  | nil =>
    intro b c hab hbc
    cases b with
    | nil => simp [strLtB] at hab
    | cons bh bt =>
      cases c with
      | nil => simp [strLtB] at hbc
      | cons ch ct => rfl
  | cons x xs ih =>
    intro b c hab hbc
    cases b with
    | nil => simp [strLtB] at hab
    | cons bh bt =>
      cases c with
      | nil => simp [strLtB] at hbc
      | cons ch ct =>
        rcases (strLtB_cons_iff _ _ _ _).mp hab with h1 | ⟨hq1, h1⟩
        · rcases (strLtB_cons_iff _ _ _ _).mp hbc with h2 | ⟨hq2, h2⟩
          · exact (strLtB_cons_iff _ _ _ _).mpr (Or.inl (lt_trans h1 h2))
          · exact (strLtB_cons_iff _ _ _ _).mpr (Or.inl (hq2 ▸ h1))
        · rcases (strLtB_cons_iff _ _ _ _).mp hbc with h2 | ⟨hq2, h2⟩
          · exact (strLtB_cons_iff _ _ _ _).mpr (Or.inl (hq1 ▸ h2))
          · exact (strLtB_cons_iff _ _ _ _).mpr
              (Or.inr ⟨hq1.trans hq2, ih bt ct h1 h2⟩)

/-- Membership after a set insertion. -/
theorem insertSorted_mem (x z : Str) :
    ∀ (l : List Str), z ∈ insertSorted x l → z = x ∨ z ∈ l := by
  intro l
  induction l with
  | nil =>
    intro h
    simp [insertSorted] at h
    exact Or.inl h
  | cons y ys ih =>
    intro h
    simp only [insertSorted] at h
    by_cases h1 : strLtB x y = true
    · rw [if_pos h1] at h
      rcases List.mem_cons.mp h with rfl | h2
      · exact Or.inl rfl
      · exact Or.inr h2
    · rw [if_neg h1] at h
      by_cases h2 : x = y
      · rw [if_pos h2] at h
        exact Or.inr h
      · rw [if_neg h2] at h
        rcases List.mem_cons.mp h with rfl | h3
        · exact Or.inr (List.mem_cons_self _ _)
        · rcases ih h3 with h4 | h4
          · exact Or.inl h4
          · exact Or.inr (List.mem_cons_of_mem _ h4)

/-- `BTreeSet::insert` keeps the model strictly sorted. -/
theorem insertSorted_pairwise (x : Str) :
    ∀ (l : List Str), l.Pairwise (fun a b => strLtB a b = true) →
      (insertSorted x l).Pairwise (fun a b => strLtB a b = true) := by
  intro l
  induction l with
  | nil =>
    intro _
    simp [insertSorted]
  | cons y ys ih =>
    intro hp
    rcases List.pairwise_cons.mp hp with ⟨hy, hys⟩
    simp only [insertSorted]
    by_cases h1 : strLtB x y = true
    · rw [if_pos h1]
      refine List.pairwise_cons.mpr ⟨?_, hp⟩
      intro z hz
      rcases List.mem_cons.mp hz with rfl | h2
      · exact h1
      · exact strLtB_trans x y z h1 (hy z h2)
    · rw [if_neg h1]
      by_cases h2 : x = y
      · rw [if_pos h2]
        exact hp
      · rw [if_neg h2]
        refine List.pairwise_cons.mpr ⟨?_, ih hys⟩
        intro z hz
        rcases insertSorted_mem x z ys hz with hzx | h3
        · rw [hzx]
          rcases strLtB_total x y with h4 | h4 | h4
          · exact absurd h4 h1
          · exact absurd h4 h2
          · exact h4
        · exact hy z h3

/-- Folding insertions keeps the model strictly sorted. -/
theorem insertAll_pairwise (ts : List Str) :
    ∀ (acc : List Str), acc.Pairwise (fun a b => strLtB a b = true) →
      (insertAll ts acc).Pairwise (fun a b => strLtB a b = true) := by
  induction ts with
  | nil =>
    intro acc h
    exact h
  | cons t ts ih =>
    intro acc h
    exact ih _ (insertSorted_pairwise t acc h)

/-- C10: however the detected tags, explicit additions and always-include tags
arrive, the template list handed to composition (and joined into the header's
detected list) is strictly sorted in ascending lexicographic order and
duplicate-free. -/
theorem c10_template_list_sorted_nodup (detected adds always : List Str) :
    (buildTemplateList detected adds always).Pairwise (fun a b => strLtB a b = true) ∧
    (buildTemplateList detected adds always).Nodup := by
  have hp : (buildTemplateList detected adds always).Pairwise
      (fun a b => strLtB a b = true) :=
    insertAll_pairwise _ _ (insertAll_pairwise _ _ (insertAll_pairwise _ _ List.Pairwise.nil))
  have hne : ∀ a b : Str, strLtB a b = true → a ≠ b := by
    intro a b hlt hEq
    rw [hEq, strLtB_irrefl] at hlt
    simp at hlt
  exact ⟨hp, hp.imp (fun h => hne _ _ h)⟩
